import Mathlib

/-!
# Smart Bookmarks — search subsystem, shallow embedding

A shallow embedding of the search subsystem of the Smart Bookmarks browser
extension (`src/search/local-search.js`, `src/search/ai-search.js`,
`src/search/index.js`), together with theorems settling the frozen claims
about it.

Modelling conventions:
* JavaScript strings are `List Char` (`Str`); `toLowerCase` maps
  `Char.toLower` over the characters.
* Asynchronous external collaborators (the OpenAI transport raced against
  the timeout, the AI-suggestion call) are passed in as explicit outcome
  values: the embedding is parametric in what the network returned.
* The module-level mutable singletons (`searchCache`, `searchHistory`) are
  threaded explicitly as state.
* `null` deferral sentinels, thrown errors and the object returned by
  `Promise.allSettled` are represented by dedicated constructors so that
  they stay distinguishable from ordinary result lists.
-/

set_option maxHeartbeats 1000000

namespace SmartBookmarks

/-- JavaScript string, modelled as its list of characters. -/
abbrev Str := List Char

/-- Convert a Lean string literal to the `Str` model. -/
def toStr (s : String) : Str := s.data

/-- Models `String.prototype.toLowerCase` (per-character case folding). -/
def lower (s : Str) : Str := s.map Char.toLower

/-- Models `String.prototype.includes`: `needle` occurs as a contiguous substring. -/
def strIncludes (hay needle : Str) : Bool := decide (needle <:+: hay)

/-- Models `String.prototype.trim`: strip leading and trailing whitespace. -/
def trim (s : Str) : Str :=
  ((s.dropWhile Char.isWhitespace).reverse.dropWhile Char.isWhitespace).reverse

/-- Models `Array.prototype.join(sep)` over strings. -/
def joinWith (sep : Str) (parts : List Str) : Str := List.intercalate sep parts

/-- Models `query.split(/\s+/).filter(k => k)`: whitespace-split, dropping empties. -/
def splitWS (s : Str) : List Str :=
  (s.splitOnP Char.isWhitespace).filter (fun k => !k.isEmpty)

/-- A stored bookmark record (`BookmarkRecord` in the spec); `id` is the
opaque identity key, the remaining fields are the searchable text. -/
structure Bookmark where
  id : Str
  title : Str
  url : Str
  description : Str := []
  tags : List Str := []
deriving DecidableEq

/-- One highlight span recorded by `extractMatches`; `stop` is the source's
`end` field (a Lean keyword). -/
structure MatchSpan where
  start : Nat
  stop : Nat
  text : Str
deriving DecidableEq

/-- The `_matches` annotation: spans per scanned field. -/
structure FieldMatches where
  title : List MatchSpan := []
  url : List MatchSpan := []
  description : List MatchSpan := []
deriving DecidableEq

/-- The `_searchType` annotation: `"local"` or `"ai"`. -/
inductive SearchType where
  | loc
  | ai
deriving DecidableEq

/-- An annotated result: a bookmark plus the transient search annotations
`_score`, `_matches`, `_aiRank`, `_searchType`. -/
structure Result extends Bookmark where
  score : Int := 0
  «matches» : Option FieldMatches := none
  aiRank : Option Nat := none
  searchType : Option SearchType := none
deriving DecidableEq

/-! ## Query parser (`SearchParser` in `local-search.js`) -/

/-- The parser's filter buckets (`this.filters`). The source field `include`
is a Lean keyword, hence the guillemets. -/
structure Filters where
  tags : List Str := []
  sites : List Str := []
  «include» : List Str := []
  exclude : List Str := []
deriving DecidableEq

/-- First index `i` with `start ≤ i` at which `matchAt` matches, together
with the match length; models a global regex scan resuming at `start`. -/
def findMatchFrom (matchAt : Nat → Option Nat) (limit start : Nat) :
    Option (Nat × Nat) :=
  ((List.range limit).filterMap fun i =>
    if start ≤ i then (matchAt i).map fun l => (i, l) else none).head?

/-- All non-overlapping matches of a pattern, scanning left to right and
resuming after each match (the `g` regex flag). `fuel` bounds the number of
matches; every pattern used here matches at least one character, so
`fuel = limit` suffices. -/
def scanAll (matchAt : Nat → Option Nat) (limit : Nat) :
    Nat → Nat → List (Nat × Nat)
  | _, 0 => []
  | start, fuel + 1 =>
    match findMatchFrom matchAt limit start with
    | none => []
    | some (i, l) => (i, l) :: scanAll matchAt limit (i + l) fuel

/-- Length of the maximal run of non-whitespace characters (`\S+`) starting
at position `i`, when non-empty. -/
def nonWSRun (s : Str) (i : Nat) : Option Nat :=
  let run := ((s.drop i).takeWhile (fun c => !c.isWhitespace)).length
  if run = 0 then none else some run

/-- Match of `<marker>\S+` at position `i` (`marker` compared
case-insensitively, as the `i` regex flag does). -/
def markerMatchAt (marker : Str) (s : Str) (i : Nat) : Option Nat :=
  if lower ((s.drop i).take marker.length) = lower marker then
    ((nonWSRun s (i + marker.length)).map fun run => marker.length + run)
  else none

/-- Match of `"[^"]+"` at position `i`: a quote, one or more non-quote
characters, a closing quote. -/
def quoteMatchAt (s : Str) (i : Nat) : Option Nat :=
  if (s.drop i).head? = some '"' then
    let run := ((s.drop (i + 1)).takeWhile (fun c => c ≠ '"')).length
    if run = 0 then none
    else if (s.drop (i + 1 + run)).head? = some '"' then some (run + 2)
    else none
  else none

/-- All matched substrings of a pattern in `s` (`String.prototype.match`
with the `g` flag). -/
def matchedSpans (matchAt : Nat → Option Nat) (s : Str) : List (Nat × Nat) :=
  scanAll matchAt (s.length + 1) 0 (s.length + 1)

/-- Models `String.prototype.replace(pattern, '')` with the `g` flag: drop every
character covered by a match of the pattern. -/
def removeMatches (matchAt : Nat → Option Nat) (s : Str) : Str :=
  let spans := matchedSpans matchAt s
  (List.range s.length).filterMap fun i =>
    if spans.any (fun p => decide (p.1 ≤ i) && decide (i < p.1 + p.2)) then none
    else s[i]?

/-- The substring of `s` covered by the span `(start, len)`, with `skip`
leading characters of the match dropped (`m.substring(skip)`). -/
def spanText (s : Str) (p : Nat × Nat) (skip : Nat) : Str :=
  (s.drop (p.1 + skip)).take (p.2 - skip)

/-- Models `SearchParser.parse`: extract `tag:`, `site:`, `排除:` and quoted-phrase
markers, then tokenize whatever remains into keywords. -/
def parseQuery (query : Str) : Filters :=
  if (trim query).isEmpty then {} else
  let cleaned := trim query
  let tagPat := markerMatchAt (toStr ("tag:")) cleaned
  let sitePat := markerMatchAt (toStr ("site:")) cleaned
  let exclPat := markerMatchAt (toStr ("排除:")) cleaned
  let quotePat := quoteMatchAt cleaned
  let tags := (matchedSpans tagPat cleaned).map fun p =>
    lower (spanText cleaned p 4)
  let sites := (matchedSpans sitePat cleaned).map fun p =>
    lower (spanText cleaned p 5)
  let excludes := (matchedSpans exclPat cleaned).map fun p =>
    lower (spanText cleaned p 3)
  let phrases := (matchedSpans quotePat cleaned).map fun p =>
    lower ((cleaned.drop (p.1 + 1)).take (p.2 - 2))
  let r1 := removeMatches (markerMatchAt (toStr ("tag:")) cleaned) cleaned
  let r2 := removeMatches (markerMatchAt (toStr ("site:")) r1) r1
  let r3 := removeMatches (markerMatchAt (toStr ("排除:")) r2) r2
  let r4 := removeMatches (quoteMatchAt r3) r3
  let remaining := trim r4
  let keywords := (splitWS remaining).map lower
  { tags := tags, sites := sites, «include» := phrases ++ keywords,
    exclude := excludes }

/-- The concatenation `title + " " + url + " " + description + " " +
tags.join(" ")`, lower-cased, that match/exclude checks run against. -/
def allTextOf (bm : Bookmark) : Str :=
  lower (bm.title ++ [' '] ++ bm.url ++ [' '] ++ bm.description ++ [' '] ++
    joinWith [' '] bm.tags)

/-- Models `SearchParser.matches`: the short-circuit match decision. -/
def Filters.«matches» (f : Filters) (bm : Bookmark) : Bool :=
  let allText := allTextOf bm
  if f.exclude.any (fun e => strIncludes allText e) then false
  else if !f.sites.isEmpty &&
      !(f.sites.any fun site => strIncludes (lower bm.url) site) then false
  else if !f.tags.isEmpty &&
      !(f.tags.all fun tag =>
        (bm.tags.map lower).any fun t => strIncludes t tag) then false
  else
    let exactPhrases := f.«include».filter fun p => strIncludes p [' ']
    if !(exactPhrases.all fun phrase => strIncludes allText phrase) then false
    else
      let singleKeywords := f.«include».filter fun p => !strIncludes p [' ']
      if !singleKeywords.isEmpty &&
          !(singleKeywords.any fun keyword => strIncludes allText keyword) then
        false
      else true

/-- Models `SearchParser.getScore`: the additive relevance score, accumulated in
the same order as the source's loops.  The tag loop's `break` after the
first matching tag is rendered as an `any` test. -/
def Filters.getScore (f : Filters) (bm : Bookmark) : Nat :=
  let titleLower := lower bm.title
  let urlLower := lower bm.url
  let descLower := lower bm.description
  let tagsLower := bm.tags.map lower
  let score := f.«include».foldl (fun score keyword =>
    if strIncludes titleLower keyword then
      let score := score + 10
      if titleLower = keyword then score + 20 else score
    else score) 0
  let score := f.«include».foldl (fun score keyword =>
    if strIncludes urlLower keyword then score + 5 else score) score
  let score := f.«include».foldl (fun score keyword =>
    if strIncludes descLower keyword then score + 3 else score) score
  let score := f.«include».foldl (fun score keyword =>
    if tagsLower.any (fun tag => strIncludes tag keyword) then score + 7
    else score) score
  let score := f.sites.foldl (fun score site =>
    if strIncludes urlLower site then score + 5 else score) score
  f.tags.foldl (fun score tag =>
    tagsLower.foldl (fun score bookmarkTag =>
      if strIncludes bookmarkTag tag then score + 8 else score) score) score

/-! ## Highlight extraction (`extractMatches` in `local-search.js`) -/

/-- Models `String.prototype.indexOf(needle, start)`: the first position `≥ start`
at which `needle` occurs in `hay`, if any. -/
def indexOfFrom (hay needle : Str) (start : Nat) : Option Nat :=
  ((List.range (hay.length + 1)).filter fun i =>
    decide (start ≤ i) && needle.isPrefixOf (hay.drop i)).head?

/-- The source's `while (index !== -1)` loop over one field: find the
keyword in the lower-cased field starting at `start`, record a span with
the original-case substring, and resume one character after the match
start (`indexOf(keyword, index + 1)`). `fuel = field.length + 1` bounds
the iterations. -/
def scanMatches (field keyword : Str) : Nat → Nat → List MatchSpan
  | _, 0 => []
  | start, fuel + 1 =>
    match indexOfFrom (lower field) keyword start with
    | none => []
    | some i =>
      { start := i, stop := i + keyword.length,
        text := (field.drop i).take keyword.length } ::
        scanMatches field keyword (i + 1) fuel

/-- Models `extractMatches(bookmark, keywords)`: scan title, url and description
independently for every keyword, accumulating spans per field in keyword
order. -/
def extractMatches (bm : Bookmark) (keywords : List Str) : FieldMatches :=
  { title := keywords.flatMap fun kw =>
      scanMatches bm.title kw 0 (bm.title.length + 1),
    url := keywords.flatMap fun kw =>
      scanMatches bm.url kw 0 (bm.url.length + 1),
    description := keywords.flatMap fun kw =>
      scanMatches bm.description kw 0 (bm.description.length + 1) }

/-! ## Options

The JavaScript functions all destructure one shared `options` object, each
with its own defaults; a single structure with those defaults models it. -/

/-- The `mergeStrategy` option of `hybridSearch`. -/
inductive MergeStrategy where
  | union
  | intersect
  | aiFirst
deriving DecidableEq

/-- The options bag threaded through `search`/`smartSearch`/`hybridSearch`/
`aiSemanticSearch`/`localSearch`, with each call site's defaults.  The
`timeout` option is absorbed into the external-call outcome. -/
structure SearchOptions where
  limit : Nat := 50
  minScore : Int := 0
  fallbackToLocal : Bool := true
  useCache : Bool := true
  localLimit : Nat := 50
  aiLimit : Nat := 20
  mergeStrategy : MergeStrategy := .union
  preferAI : Bool := false
  aiThreshold : Nat := 5
  useHybrid : Bool := true
  history : Bool := true
  suggestions : Bool := false
  useAI : Bool := true
deriving DecidableEq

/-! ## Local search engine (`localSearch` in `local-search.js`) -/

/-- Models `localSearch(bookmarks, query, {limit = 50, minScore = 0})`: parse the
query, score each record (non-matching records get `-1`), keep scores
`≥ minScore`, sort descending by score, truncate to `limit`, and annotate
the survivors with `_score` and `_matches`. -/
def localSearch (bookmarks : List Bookmark) (query : Str)
    (options : SearchOptions) : List Result :=
  if (trim query).isEmpty then [] else
  let parser := parseQuery query
  let scored := bookmarks.map fun bookmark =>
    (bookmark,
      if parser.«matches» bookmark then (parser.getScore bookmark : Int)
      else -1)
  let kept := scored.filter fun item => decide (options.minScore ≤ item.2)
  let sorted := List.insertionSort (fun a b => b.2 ≤ a.2) kept
  (sorted.take options.limit).map fun item =>
    { toBookmark := item.1, score := item.2,
      «matches» := some (extractMatches item.1 (parser.«include»)) }

/-! ## AI search cache (`SearchCache` in `ai-search.js`) -/

/-- One stored cache value: the result list plus its insertion timestamp. -/
structure CacheEntry where
  results : List Result
  timestamp : Nat
deriving DecidableEq

/-- The memoization cache: a JS `Map` (an association list in insertion
order) bounded by `maxSize`; the singleton uses the default size 100. -/
structure SearchCache where
  cache : List (Str × CacheEntry) := []
  maxSize : Nat := 100
deriving DecidableEq

instance : Inhabited CacheEntry := ⟨{ results := [], timestamp := 0 }⟩

/-- Models `Map.prototype.get`. -/
def mapGetEntry (m : List (Str × CacheEntry)) (k : Str) : Option CacheEntry :=
  (m.find? fun p => p.1 == k).map fun p => p.2

/-- Models `Map.prototype.set`: overwrite in place when the key is present,
otherwise append in insertion order. -/
def mapSetEntry (m : List (Str × CacheEntry)) (k : Str) (v : CacheEntry) :
    List (Str × CacheEntry) :=
  if m.any (fun p => p.1 == k) then
    m.map fun p => if p.1 == k then (k, v) else p
  else m ++ [(k, v)]

/-- Models `SearchCache.getKey`: the query, a colon, and the sorted comma-joined
id list (`bookmarkIds.sort()` sorts the id strings lexicographically). -/
def SearchCache.getKey (query : Str) (bookmarkIds : List Str) : Str :=
  query ++ [':'] ++ joinWith [','] (List.insertionSort (· ≤ ·) bookmarkIds)

/-- Models `SearchCache.get`: a hit only while the entry is younger than the
5-minute TTL; `now` stands for `Date.now()`. -/
def SearchCache.get (c : SearchCache) (query : Str) (bookmarkIds : List Str)
    (now : Nat) : Option (List Result) :=
  let key := SearchCache.getKey query bookmarkIds
  match mapGetEntry c.cache key with
  | some item =>
    if now - item.timestamp < 5 * 60 * 1000 then some item.results else none
  | none => none

/-- Models `SearchCache.set`: evict the first-inserted key when at capacity, then
store the results under the key with the current timestamp. -/
def SearchCache.set (c : SearchCache) (query : Str) (bookmarkIds : List Str)
    (results : List Result) (now : Nat) : SearchCache :=
  let key := SearchCache.getKey query bookmarkIds
  let cache :=
    if c.maxSize ≤ c.cache.length then
      match c.cache with
      | [] => []
      | _ :: rest => rest
    else c.cache
  { c with cache := mapSetEntry cache key { results := results, timestamp := now } }

/-! ## AI semantic search (`ai-search.js`) -/

/-- The duck-typed AI configuration object `{apiUrl, apiKey, model}`; an
absent or empty-string field is falsy, so absence is modelled by `[]`. -/
structure AIConfig where
  apiUrl : Str := []
  apiKey : Str := []
  model : Str := []
deriving DecidableEq

/-- Outcome of the external `openaiSemanticSearch` call raced against the
timeout: either the collaborator's ordered id list (resolved in time) or a
failure (transport/parse error, non-2xx response, or the timeout firing
first). -/
inductive AICallOutcome where
  | ids (matchedIds : List Str)
  | failure
deriving DecidableEq

/-- What `aiSemanticSearch` settles with: a result list (possibly empty),
the `null` "defer to local" sentinel, or a propagated error. -/
inductive AIAnswer where
  | results (rs : List Result)
  | deferToLocal
  | thrown
deriving DecidableEq

/-- The `Map` lookup used by `performAISearch`; built from entries, so a
duplicate id keeps the last insertion. -/
def mapGetBookmark (bookmarks : List Bookmark) (id : Str) : Option Bookmark :=
  (bookmarks.filter fun b => b.id == id).getLast?

/-- Models `performAISearch`: map the collaborator's id list back to full records,
dropping unknown ids, and annotate them with `_score = 100 - index`,
`_aiRank = index + 1` and `_searchType = "ai"`. -/
def performAISearch (bookmarks : List Bookmark) (matchedIds : List Str) :
    List Result :=
  if matchedIds.isEmpty then [] else
  let found := matchedIds.filterMap fun id => mapGetBookmark bookmarks id
  found.enum.map fun p =>
    { toBookmark := p.2, score := (100 : Int) - p.1, aiRank := some (p.1 + 1),
      searchType := some .ai }

/-- Models `aiSemanticSearch(query, bookmarks, config, options)`.  The global
cache is threaded explicitly; `now` is `Date.now()`, and `call` is the
outcome of the raced external call. -/
def aiSemanticSearch (query : Str) (bookmarks : List Bookmark)
    (config : Option AIConfig) (options : SearchOptions)
    (cache : SearchCache) (now : Nat) (call : AICallOutcome) :
    AIAnswer × SearchCache :=
  if (trim query).isEmpty then (.results [], cache)
  else
    let configured := match config with
      | none => false
      | some cfg => !cfg.apiUrl.isEmpty && !cfg.apiKey.isEmpty
    if !configured then
      if options.fallbackToLocal then (.deferToLocal, cache)
      else (.results [], cache)
    else
      let bookmarkIds := bookmarks.map fun b => b.id
      let cached :=
        if options.useCache then cache.get query bookmarkIds now else none
      match cached with
      | some results => (.results results, cache)
      | none =>
        match call with
        | .ids matchedIds =>
          let results := performAISearch bookmarks matchedIds
          -- `if (useCache && results)`: a JS array is truthy even when empty
          let cache :=
            if options.useCache then cache.set query bookmarkIds results now
            else cache
          (.results results, cache)
        | .failure =>
          if options.fallbackToLocal then (.deferToLocal, cache)
          else (.thrown, cache)

/-! ## Hybrid and smart search (`ai-search.js`) -/

/-- One element of the array `Promise.allSettled` resolves with. -/
inductive Settled (α : Type) where
  | fulfilled (value : α)
  | rejected
deriving DecidableEq

/-- The settled outcome of the AI promise: it fulfills with the JS value
`aiSemanticSearch` resolved with (an array, or the `null` sentinel) and
rejects when it threw. -/
def settleAI : AIAnswer → Settled (Option (List Result))
  | .results rs => .fulfilled (some rs)
  | .deferToLocal => .fulfilled none
  | .thrown => .rejected

/-- A value returned by the search entry points.  `hybridSearch`'s
`ai-first` branch returns the raw `Promise.allSettled` outcome object
(`settledObj`), `smartSearch`'s pure-AI branch can return the `null`
sentinel (`nullref`) or propagate an error (`thrown`). -/
inductive SearchReturn where
  | list (rs : List Result)
  | nullref
  | settledObj (s : Settled (Option (List Result)))
  | thrown
deriving DecidableEq

/-- Models `mergeResults(localResults, aiResults, limit)`: AI results first
(deduplicated by id), then local-only results tagged `_searchType="local"`
while below `limit`, then a final `slice(0, limit)`.  The `seen` set and
`merged` array of the source are the two fold components. -/
def mergeResults (localResults aiResults : List Result) (limit : Nat) :
    List Result :=
  let afterAI := aiResults.foldl
    (fun (acc : List Str × List Result) result =>
      if decide (result.id ∈ acc.1) then acc
      else (result.id :: acc.1, acc.2 ++ [result]))
    ([], [])
  let afterLocal := localResults.foldl
    (fun (acc : List Str × List Result) result =>
      if !decide (result.id ∈ acc.1) && decide (acc.2.length < limit) then
        (result.id :: acc.1, acc.2 ++ [{ result with searchType := some .loc }])
      else acc)
    afterAI
  afterLocal.2.take limit

/-- Models `intersectResults(localResults, aiResults)`: keep the local results
whose id also occurs among the AI results. -/
def intersectResults (localResults aiResults : List Result) : List Result :=
  let aiIds := aiResults.map fun r => r.id
  localResults.filter fun r => decide (r.id ∈ aiIds)

/-- Models `hybridSearch(query, bookmarks, config, options)`: run local search and
AI search (with fallback disabled), fall back to local when AI produced
nothing usable, otherwise combine according to `mergeStrategy`.  Note that
the `ai-first` branch returns `aiResults` — the `Promise.allSettled`
outcome object — rather than the unwrapped list `ai`. -/
def hybridSearch (query : Str) (bookmarks : List Bookmark)
    (config : Option AIConfig) (options : SearchOptions)
    (cache : SearchCache) (now : Nat) (call : AICallOutcome) :
    SearchReturn × SearchCache :=
  -- the local promise always fulfills: the synchronous local path does not throw
  let localValue := localSearch bookmarks query { limit := options.localLimit }
  let (aiAnswer, cache') := aiSemanticSearch query bookmarks config
    { options with fallbackToLocal := false } cache now call
  let aiResults : Settled (Option (List Result)) := settleAI aiAnswer
  let ai : Option (List Result) := match aiResults with
    | .fulfilled v => v
    | .rejected => some []
  match ai with
  | none => (.list localValue, cache')
  | some aiList =>
    if aiList.isEmpty then (.list localValue, cache')
    else
      match options.mergeStrategy with
      | .intersect => (.list (intersectResults localValue aiList), cache')
      | .aiFirst => (.settledObj aiResults, cache')
      | .union => (.list (mergeResults localValue aiList options.aiLimit), cache')

/-- Models `smartSearch(query, bookmarks, aiConfig, options)`: local-only without
AI config; hybrid (or pure AI) when preferred; otherwise local first with
AI escalation only below `aiThreshold` results. -/
def smartSearch (query : Str) (bookmarks : List Bookmark)
    (aiConfig : Option AIConfig) (options : SearchOptions)
    (cache : SearchCache) (now : Nat) (call : AICallOutcome) :
    SearchReturn × SearchCache :=
  let hasAI := match aiConfig with
    | none => false
    | some cfg => !cfg.apiUrl.isEmpty && !cfg.apiKey.isEmpty
  if !hasAI then (.list (localSearch bookmarks query options), cache)
  else if options.preferAI || options.useHybrid then
    if options.useHybrid then
      hybridSearch query bookmarks aiConfig options cache now call
    else
      let (answer, cache') :=
        aiSemanticSearch query bookmarks aiConfig options cache now call
      (match answer with
        | .results rs => .list rs
        | .deferToLocal => .nullref
        | .thrown => .thrown, cache')
  else
    let localResults := localSearch bookmarks query options
    if localResults.length < options.aiThreshold then
      let (answer, cache') := aiSemanticSearch query bookmarks aiConfig
        { options with fallbackToLocal := true } cache now call
      (match answer with
        | .results rs => .list rs        -- `aiResults || localResults`: an array is truthy
        | .deferToLocal => .list localResults
        | .thrown => .thrown, cache')
    else (.list localResults, cache)

/-! ## Search history (`SearchHistory` in `search/index.js`) -/

/-- The search-history singleton: the in-memory list plus the value
persisted under the `searchHistory` storage key (`none` before the first
save).  The singleton is built with the default `maxSize = 50`. -/
structure HistoryState where
  history : List Str := []
  storage : Option (List Str) := none
  maxSize : Nat := 50
deriving DecidableEq

/-- Models `SearchHistory.save`: write the in-memory list to storage. -/
def historySave (s : HistoryState) : HistoryState :=
  { s with storage := some s.history }

/-- Models `SearchHistory.add`: ignore blank queries; otherwise trim, drop the
existing occurrence, push to the front, truncate to `maxSize`, save. -/
def historyAdd (s : HistoryState) (query : Str) : HistoryState :=
  if (trim query).isEmpty then s
  else
    let query := trim query
    let history := s.history.filter fun h => h != query
    let history := query :: history
    let history :=
      if s.maxSize < history.length then history.take s.maxSize else history
    historySave { s with history := history }

/-- Models `SearchHistory.remove`. -/
def historyRemove (s : HistoryState) (query : Str) : HistoryState :=
  historySave { s with history := s.history.filter fun h => h != query }

/-- Models `SearchHistory.clear`. -/
def historyClear (s : HistoryState) : HistoryState :=
  historySave { s with history := [] }

/-- Models `SearchHistory.getSuggestions(query, limit = 5)`. -/
def historyGetSuggestions (s : HistoryState) (query : Str) (limit : Nat) :
    List Str :=
  if (trim query).isEmpty then s.history.take limit
  else
    let queryLower := lower query
    (s.history.filter fun h => strIncludes (lower h) queryLower).take limit

/-- A mutating operation on the history singleton. -/
inductive HistoryOp where
  | add (query : Str)
  | remove (query : Str)
  | clear
deriving DecidableEq

/-- Run a sequence of history operations. -/
def historyRun (ops : List HistoryOp) (s : HistoryState) : HistoryState :=
  ops.foldl
    (fun s op =>
      match op with
      | .add q => historyAdd s q
      | .remove q => historyRemove s q
      | .clear => historyClear s)
    s

/-! ## Suggestions (`getSearchSuggestions` in `local-search.js`,
`getAISuggestions` in `ai-search.js`) -/

/-- The `type` discriminator of a suggestion. -/
inductive SuggestionType where
  | tag
  | site
  | history
  | tagQuick
  | ai
deriving DecidableEq

/-- A suggestion entry `{type, text, label}`. -/
structure Suggestion where
  type : SuggestionType
  text : Str
  label : Str
deriving DecidableEq

/-- Models `String.prototype.replace(pattern, '')` without the `g` flag: remove
only the first match. -/
def removeFirstMatch (matchAt : Nat → Option Nat) (s : Str) : Str :=
  match findMatchFrom matchAt (s.length + 1) 0 with
  | none => s
  | some (i, l) => s.take i ++ s.drop (i + l)

/-- Literal string pattern (`/tag:/` and `/site:/` have no `i` flag). -/
def literalMatchAt (pat s : Str) (i : Nat) : Option Nat :=
  if pat.isPrefixOf (s.drop i) && !pat.isEmpty then some pat.length else none

/-- Models `getSearchSuggestions(query, searchHistory, tags)`. -/
def getSearchSuggestions (query : Str) (searchHistory : List Str)
    (tags : List Str) : List Suggestion :=
  let queryLower := lower query
  if strIncludes query [':'] then
    let pre := lower (query.takeWhile fun c => c ≠ ':')
    if pre = toStr ("tag") || pre = toStr ("标签") then
      (tags.filter fun tag =>
        strIncludes (lower tag)
          (trim (removeFirstMatch (literalMatchAt (toStr ("tag:")) queryLower)
            queryLower))).map
        fun tag =>
          { type := .tag, text := toStr ("tag:") ++ tag, label := tag }
    else if pre = toStr ("site") || pre = toStr ("站点") then
      let commonSites := [toStr ("github.com"), toStr ("stackoverflow.com"),
        toStr ("developer.mozilla.org")]
      (commonSites.filter fun site =>
        strIncludes site
          (trim (removeFirstMatch (literalMatchAt (toStr ("site:")) queryLower)
            queryLower))).map
        fun site =>
          { type := .site, text := toStr ("site:") ++ site, label := site }
    else []
  else
    ((searchHistory.filter fun h => queryLower.isPrefixOf (lower h)).take 5).map
      (fun h => { type := .history, text := h, label := h }) ++
    ((tags.filter fun t => strIncludes (lower t) queryLower).take 3).map
      fun tag =>
        { type := .tagQuick, text := toStr ("tag:") ++ tag,
          label := toStr ("按标签 \"") ++ tag ++ toStr ("\" 搜索") }

/-- Outcome of the external AI-suggestion completion call: a parsed
suggestion list, or any failure (degrades to an empty list). -/
inductive AISuggestOutcome where
  | ok (suggestions : List Str)
  | failure
deriving DecidableEq

/-- Models `getAISuggestions(query, bookmarks, config)`: empty without a usable
config or for queries shorter than 2 characters; failures degrade to `[]`. -/
def getAISuggestions (query : Str) (config : Option AIConfig)
    (outcome : AISuggestOutcome) : List Str :=
  let configured := match config with
    | none => false
    | some cfg => !cfg.apiUrl.isEmpty && !cfg.apiKey.isEmpty
  if !configured then []
  else if query.length < 2 then []
  else
    match outcome with
    | .ok suggestions => suggestions
    | .failure => []

/-! ## Stats, unified `search`, and export (`search/index.js`) -/

/-- The value `results.length` read off a `SearchReturn`: `some n` for an array,
`some 0` stands for `undefined` compared false on the settled object, and
`none` marks the `TypeError` of reading `.length` of `null`. -/
def SearchReturn.lengthJS : SearchReturn → Option Nat
  | .list rs => some rs.length
  | .settledObj _ => some 0
  | .nullref => none
  | .thrown => none

/-- Models `isAdvancedQuery(query)`: the test `/tag:|site:|排除:|"[^"]+"/`. -/
def isAdvancedQuery (query : Str) : Bool :=
  strIncludes query (toStr ("tag:")) || strIncludes query (toStr ("site:")) ||
    strIncludes query (toStr ("排除:")) ||
    (List.range (query.length + 1)).any fun i => (quoteMatchAt query i).isSome

/-- The `stats` part of the result envelope; `matched` is `results.length`
(absent when `results` is not an array). -/
structure SearchStats where
  total : Nat
  matched : Option Nat
  query : Str
  hasAdvanced : Bool
  timestamp : Nat
deriving DecidableEq

/-- Collecting tags through a JS `Set`: first-occurrence order, no
duplicates. -/
def setInsertionOrder (l : List Str) : List Str :=
  l.foldl (fun acc t => if decide (t ∈ acc) then acc else acc ++ [t]) []

/-- Models `getSearchStats(results, query, totalBookmarks)`. -/
def getSearchStats (results : SearchReturn) (query : Str)
    (totalBookmarks : Nat) (now : Nat) : SearchStats :=
  { total := totalBookmarks, matched := results.lengthJS, query := query,
    hasAdvanced := isAdvancedQuery query, timestamp := now }

/-- The envelope `search` resolves with. -/
structure SearchOutput where
  results : SearchReturn
  stats : SearchStats
  suggestions : List Suggestion
deriving DecidableEq

/-- Models `search(query, bookmarks, aiConfig, options)`: the unified entry point.
Returns `none` when the call rejects (the AI path threw with fallback
disabled, or `results` is `null` and reading `.length` throws).  The
history and cache singletons are threaded as state. -/
def search (query : Str) (bookmarks : List Bookmark)
    (aiConfig : Option AIConfig) (options : SearchOptions)
    (hist : HistoryState) (cache : SearchCache) (now : Nat)
    (call : AICallOutcome) (suggOutcome : AISuggestOutcome) :
    Option (SearchOutput × HistoryState × SearchCache) :=
  if (trim query).isEmpty then
    let emptyStats : SearchStats :=
      { total := bookmarks.length, matched := some 0, query := [],
        hasAdvanced := false, timestamp := now }
    some ({ results := .list [], stats := emptyStats, suggestions := [] },
      hist, cache)
  else
    let (results, cache') :=
      if options.useAI && aiConfig.isSome then
        smartSearch query bookmarks aiConfig options cache now call
      else (.list (localSearch bookmarks query options), cache)
    match results.lengthJS with
    | none => none
    | some len =>
      let hist' :=
        if options.history && decide (0 < len) then historyAdd hist query
        else hist
      let stats := getSearchStats results query bookmarks.length now
      let suggestionList :=
        if options.suggestions then
          let historySuggestions := historyGetSuggestions hist' query 5
          let allTags := setInsertionOrder (bookmarks.flatMap fun b => b.tags)
          let localSuggestions :=
            getSearchSuggestions query historySuggestions allTags
          if options.useAI && aiConfig.isSome then
            localSuggestions ++
              ((getAISuggestions query aiConfig suggOutcome).map fun sg =>
                { type := .ai, text := sg, label := sg })
          else localSuggestions
        else []
      some ({ results := results, stats := stats,
              suggestions := suggestionList }, hist', cache')

/-- The CSV header labels (title / URL / tags / description / score). -/
def csvHeaders : List Str :=
  [toStr ("标题"), toStr ("URL"), toStr ("标签"), toStr ("描述"),
    toStr ("得分")]

/-- One row of the CSV export: title, url, tags joined by `"; "`,
description, score — in that fixed order. -/
def csvRow (r : Result) : List Str :=
  [r.title, r.url, joinWith (toStr ("; ")) r.tags, r.description,
    (toString r.score).data]

/-- The CSV branch of `exportSearchResults`: header line, then one row per
result, each cell rendered as `"${cell}"` (always wrapped in quotes, with
no escaping of the cell's own characters).  The `json` and `html` branches
serialize through the host's JSON/DOM facilities and are outside this
model. -/
def exportSearchResultsCsv (results : List Result) : Str :=
  let headers := csvHeaders
  let rows := results.map csvRow
  joinWith ['\n']
    (joinWith [','] headers ::
      rows.map fun row => joinWith [','] (row.map fun cell =>
        '"' :: cell ++ ['"']))

/-! ## Claim-side specification definitions

Definitions in this section follow the wording of the spec's claims (for
refutation or for amended statements); they are deliberately written from
the spec's words, to be compared with the code-derived definitions above. -/

/-- All positions at which `keyword` occurs in `field` case-insensitively
(the keyword is produced lower-cased by the parser). -/
def occurrencePositions (field keyword : Str) : List Nat :=
  (List.range (field.length + 1)).filter fun i =>
    keyword.isPrefixOf ((lower field).drop i)

/-- Amended highlight spec: every occurrence — overlapping ones included —
recorded as a `{start, end, text}` span with the original-case substring. -/
def allOccurrenceSpans (field keyword : Str) : List MatchSpan :=
  (occurrencePositions field keyword).map fun i =>
    { start := i, stop := i + keyword.length,
      text := (field.drop i).take keyword.length }

/-- The original claim's reading of the highlight scan: greedy
left-to-right collection of non-overlapping occurrences, resuming after
the end of each match. -/
def nonOverlappingSpans (field keyword : Str) : Nat → Nat → List MatchSpan
  | _, 0 => []
  | start, fuel + 1 =>
    match indexOfFrom (lower field) keyword start with
    | none => []
    | some i =>
      { start := i, stop := i + keyword.length,
        text := (field.drop i).take keyword.length } ::
        nonOverlappingSpans field keyword (i + keyword.length) fuel

/-- CSV quoting as the original claim states it: wrapped in quotes exactly
when the value contains a delimiter, newline or quote, with every internal
double quote doubled. -/
def csvQuoteClaim (cell : Str) : Str :=
  if cell.any (fun c => c = ',' || c = '\n' || c = '"') then
    '"' :: (cell.flatMap fun c => if c = '"' then [c, c] else [c]) ++ ['"']
  else cell

/-- CSV export as the original claim states it. -/
def exportCsvClaim (results : List Result) : Str :=
  joinWith ['\n']
    (joinWith [','] csvHeaders ::
      results.map fun r => joinWith [','] ((csvRow r).map csvQuoteClaim))

/-- CSV export as the amended claim states it: one row per result in the
fixed column order title / url / tags-joined / description / score, every
value unconditionally wrapped in quotes and embedded verbatim (no
doubling of internal quotes). -/
def exportCsvAlwaysQuoted (results : List Result) : Str :=
  joinWith ['\n']
    (joinWith [','] csvHeaders ::
      results.map fun r =>
        joinWith [',']
          ([r.title, r.url, joinWith (toStr ("; ")) r.tags, r.description,
            (toString r.score).data].map fun cell => '"' :: cell ++ ['"']))

/-- The union-merge output as the claim describes it: AI results first in
AI order, then the local-only results tagged `"local"`, truncated to the
limit. -/
def unionMergeClaim (aiResults localResults : List Result) (limit : Nat) :
    List Result :=
  (aiResults ++
    (localResults.filter fun (r : Result) =>
      !decide (r.id ∈ aiResults.map fun (a : Result) => a.id)).map
      fun (r : Result) => { r with searchType := some .loc }).take limit

/-- The additive scoring formula as the claim states it: weighted counts
of matching include keywords per field (+10 title, +20 more for an exact
case-insensitive title match, +5 url, +3 description, +7 for a tag hit
counted once per keyword), +5 per sites token found in the url, and +8
per (tag-filter token, matching record tag) pair. -/
def claimScore (f : Filters) (bm : Bookmark) : Nat :=
  let titleLower := lower bm.title
  let urlLower := lower bm.url
  let descLower := lower bm.description
  let tagsLower := bm.tags.map lower
  10 * (f.«include».filter fun kw => strIncludes titleLower kw).length +
    20 * (f.«include».filter fun kw => decide (titleLower = kw)).length +
    5 * (f.«include».filter fun kw => strIncludes urlLower kw).length +
    3 * (f.«include».filter fun kw => strIncludes descLower kw).length +
    7 * (f.«include».filter fun kw =>
      tagsLower.any fun t => strIncludes t kw).length +
    5 * (f.sites.filter fun site => strIncludes urlLower site).length +
    8 * (f.tags.map fun tag =>
      (tagsLower.filter fun bt => strIncludes bt tag).length).sum

/-- Invariants of the history singleton state: no duplicates, at most 50
entries, no blank entries, default capacity. -/
def HistoryInv (s : HistoryState) : Prop :=
  s.history.Nodup ∧ s.history.length ≤ 50 ∧
    (∀ e ∈ s.history, e ≠ []) ∧ s.maxSize = 50

/-! ## Concrete inputs used by counterexamples and witnesses -/

/-- C1: a bookmark the AI collaborator reports as relevant. -/
def hbBm : Bookmark :=
  { id := toStr ("1"), title := toStr ("t"), url := toStr ("u") }

/-- C1: the AI annotation `performAISearch` attaches to `hbBm` at rank 1. -/
def hbAiRes : Result :=
  { toBookmark := hbBm, score := 100, aiRank := some 1,
    searchType := some .ai }

/-- C1: a complete AI configuration. -/
def hbCfg : AIConfig :=
  { apiUrl := toStr ("https://api.example.com/v1"), apiKey := toStr ("k"),
    model := toStr ("gpt") }

/-- C2: a bookmark whose title contains overlapping occurrences of a
keyword. -/
def ovBm : Bookmark :=
  { id := toStr ("1"), title := toStr ("aaa"), url := toStr ("u") }

/-- C4: a result whose title contains a double quote and whose url does
not contain a delimiter, newline or quote. -/
def csvRes : Result :=
  { id := toStr ("1"), title := toStr ("a\"b"), url := toStr ("u"),
    score := 3 }

/-- C5: AI result with id `id1`. -/
def exA1 : Result :=
  { id := toStr ("id1"), title := toStr ("t1"), url := toStr ("u1"),
    score := 100, aiRank := some 1, searchType := some .ai }

/-- C5: AI result with id `id2`. -/
def exA2 : Result :=
  { id := toStr ("id2"), title := toStr ("t2"), url := toStr ("u2"),
    score := 99, aiRank := some 2, searchType := some .ai }

/-- C5: local result with id `id2`. -/
def exL2 : Result :=
  { id := toStr ("id2"), title := toStr ("t2"), url := toStr ("u2"),
    score := 10 }

/-- C5: local result with id `id3`. -/
def exL3 : Result :=
  { id := toStr ("id3"), title := toStr ("t3"), url := toStr ("u3"),
    score := 5 }

/-- C6: a bookmark matching the single-keyword query `t` (the keyword is
in the title, exactly). -/
def scBm : Bookmark :=
  { id := toStr ("1"), title := toStr ("t"), url := toStr ("u"),
    tags := [toStr ("tea")] }

/-- C10: a non-trivial history state (one persisted entry). -/
def frameHist : HistoryState :=
  { history := [toStr ("old")], storage := some [toStr ("old")] }

/-! # Theorems -/

/-! ## C9 — `smartSearch` without AI configuration is `localSearch` -/

/-- C9: for every query and record collection, `smartSearch(query,
records, null, {})` — no AI configuration — returns exactly the sequence
`localSearch(records, query, {})`, and leaves the cache untouched. -/
theorem smartSearch_noConfig_eq_localSearch (query : Str)
    (bookmarks : List Bookmark) (cache : SearchCache) (now : Nat)
    (call : AICallOutcome) :
    smartSearch query bookmarks none {} cache now call =
      (.list (localSearch bookmarks query {}), cache) := rfl

/-! ## C3 — `aiSemanticSearch` config guard -/

/-- C3 counterexample: a configuration that has an endpoint URL and a
credential but lacks the model identifier is *not* deferred — with
`fallbackToLocal = true`, a non-empty query and an AI transport that
returns no ids, the call returns the empty result list, not the
sentinel. -/
theorem aiSemanticSearch_missing_model_not_deferred :
    (aiSemanticSearch (toStr ("a")) []
        (some { apiUrl := toStr ("https://api.example.com/v1"),
                apiKey := toStr ("k"), model := [] })
        {} {} 0 (.ids [])).1 = .results [] ∧
      AIAnswer.results [] ≠ .deferToLocal := by
  exact ⟨rfl, by decide⟩

/-- C3 amended: with `fallbackToLocal = true` and a non-blank query, a
missing config, or one lacking the endpoint URL or the credential (the
model identifier is *not* checked), makes `aiSemanticSearch` return the
`null` deferral sentinel — distinct from an empty result list — without
throwing and without touching the cache. -/
theorem aiSemanticSearch_incomplete_config_defers (query : Str)
    (bookmarks : List Bookmark) (config : Option AIConfig)
    (options : SearchOptions) (cache : SearchCache) (now : Nat)
    (call : AICallOutcome)
    (hq : (trim query).isEmpty = false)
    (hfb : options.fallbackToLocal = true)
    (hcfg : config = none ∨
      ∃ cfg, config = some cfg ∧ (cfg.apiUrl = [] ∨ cfg.apiKey = [])) :
    aiSemanticSearch query bookmarks config options cache now call =
        (.deferToLocal, cache) ∧
      AIAnswer.deferToLocal ≠ .results [] := by
  refine ⟨?_, by decide⟩
  unfold aiSemanticSearch
  rcases hcfg with hc | ⟨cfg, hc, hor⟩ <;> subst hc
  · simp [hq, hfb]
  · rcases hor with h | h <;> simp [hq, hfb, h]

/-- C3 amended, witness: a concrete deferral with a missing config. -/
theorem aiSemanticSearch_incomplete_config_defers_witness :
    aiSemanticSearch (toStr ("a")) [] none {} {} 0 .failure =
        (.deferToLocal, {}) ∧
      AIAnswer.deferToLocal ≠ .results [] :=
  aiSemanticSearch_incomplete_config_defers (toStr ("a")) [] none {} {} 0
    .failure (by decide) rfl (Or.inl rfl)

/-! ## C1 — `hybridSearch` with `mergeStrategy = 'ai-first'` -/

/-- C1: at the failing input — a configured AI whose collaborator reports
the id of `hbBm` as relevant, merge strategy `ai-first` — `hybridSearch`
returns the raw `Promise.allSettled` outcome object wrapping the AI list,
not the AI result list itself (the source returns `aiResults` where its
sibling branches use the unwrapped `ai`). -/
theorem hybridSearch_aiFirst_returns_settled_outcome :
    (hybridSearch (toStr ("q")) [hbBm] (some hbCfg)
        { mergeStrategy := .aiFirst } {} 0 (.ids [toStr ("1")])).1 =
        .settledObj (.fulfilled (some [hbAiRes])) ∧
      SearchReturn.settledObj (.fulfilled (some [hbAiRes])) ≠
        .list [hbAiRes] := by
  exact ⟨by decide, by decide⟩

/-! ## C4 — CSV export quoting -/

/-- C4 counterexample: for a result whose title contains a double quote
and whose url contains no delimiter/newline/quote, the exported CSV quotes
every value and leaves the internal quote undoubled, while the claim's
conditional-quoting rendition leaves the url bare and doubles the quote;
the two disagree. -/
theorem exportCsv_conditional_quoting_cx :
    exportSearchResultsCsv [csvRes] =
        toStr ("标题,URL,标签,描述,得分\n\"a\"b\",\"u\",\"\",\"\",\"3\"") ∧
      exportCsvClaim [csvRes] =
        toStr ("标题,URL,标签,描述,得分\n\"a\"\"b\",u,,,3") ∧
      exportSearchResultsCsv [csvRes] ≠ exportCsvClaim [csvRes] := by
  refine ⟨by decide, by decide, by decide⟩

/-- C4 amended: for every result list, the CSV export is the header line
followed by one row per result in the fixed column order title / url /
tags-joined / description / score, with every value unconditionally
wrapped in quotes and embedded verbatim (no doubling of internal
quotes). -/
theorem exportCsv_always_quotes (results : List Result) :
    exportSearchResultsCsv results = exportCsvAlwaysQuoted results := by
  simp only [exportSearchResultsCsv, exportCsvAlwaysQuoted, csvRow,
    List.map_map]
  rfl

/-! ## C7 — cache hits depend on the id set, not the id order -/

/-- Sorting id strings lexicographically is a function of the multiset of
ids: permuted inputs sort to the same list. -/
theorem insertionSort_eq_of_perm {l₁ l₂ : List Str} (h : l₁.Perm l₂) :
    List.insertionSort (· ≤ ·) l₁ = List.insertionSort (· ≤ ·) l₂ :=
  List.eq_of_perm_of_sorted
    ((List.perm_insertionSort _ l₁).trans
      (h.trans (List.perm_insertionSort _ l₂).symm))
    (List.sorted_insertionSort _ l₁) (List.sorted_insertionSort _ l₂)

/-- A `Map.get` right after an overwriting `Map.set` of a present key. -/
theorem find?_map_overwrite (m : List (Str × CacheEntry)) (k : Str)
    (v : CacheEntry) (h : m.any (fun p => p.1 == k) = true) :
    (m.map fun p => if p.1 == k then (k, v) else p).find?
      (fun p => p.1 == k) = some (k, v) := by
  induction m with
  | nil => simp at h
  | cons x t ih =>
    cases hx : (x.1 == k) with
    | true =>
      simp only [List.map_cons, if_pos hx]
      rw [List.find?_cons_of_pos _ (by simp)]
    | false =>
      have ht : (t.any fun p => p.1 == k) = true := by
        rw [List.any_cons, hx] at h
        simpa using h
      simp only [List.map_cons, hx, Bool.false_eq_true, if_false]
      rw [List.find?_cons_of_neg _ (by simp [hx])]
      exact ih ht

/-- A `Map.get` right after a `Map.set` that appended a fresh key. -/
theorem find?_append_fresh (m : List (Str × CacheEntry)) (k : Str)
    (v : CacheEntry) (h : m.any (fun p => p.1 == k) = false) :
    (m ++ [(k, v)]).find? (fun p => p.1 == k) = some (k, v) := by
  induction m with
  | nil =>
    rw [List.nil_append, List.find?_cons_of_pos _ (by simp)]
  | cons x t ih =>
    rw [List.any_cons, Bool.or_eq_false_iff] at h
    rw [List.cons_append, List.find?_cons_of_neg _ (by simp [h.1])]
    exact ih h.2

/-- A `Map.set` always leaves its key retrievable. -/
theorem mapGetEntry_mapSetEntry (m : List (Str × CacheEntry)) (k : Str)
    (v : CacheEntry) : mapGetEntry (mapSetEntry m k v) k = some v := by
  unfold mapGetEntry mapSetEntry
  cases hb : m.any (fun p => p.1 == k) with
  | true =>
    rw [if_pos rfl, find?_map_overwrite m k v hb]
    rfl
  | false =>
    rw [if_neg (by simp), find?_append_fresh m k v hb]
    rfl

/-- C7: for every cache state, query and result list, after
`set(query, ids1, results)` an immediate `get(query, ids2)` with `ids2` a
permutation of `ids1` is a hit returning `results` — the key depends only
on the set of ids, not on their order. -/
theorem cache_hit_independent_of_id_order (c : SearchCache) (query : Str)
    (ids1 ids2 : List Str) (results : List Result) (now : Nat)
    (hperm : ids2.Perm ids1) :
    (c.set query ids1 results now).get query ids2 now = some results := by
  have hkey : SearchCache.getKey query ids2 = SearchCache.getKey query ids1 := by
    unfold SearchCache.getKey
    rw [insertionSort_eq_of_perm hperm]
  unfold SearchCache.get SearchCache.set
  simp only [hkey, mapGetEntry_mapSetEntry, Nat.sub_self]
  simp

/-- C7 witness: a concrete two-id permutation hit. -/
theorem cache_hit_independent_of_id_order_witness :
    (SearchCache.set {} (toStr ("q")) [toStr ("b"), toStr ("a")] [] 7).get
      (toStr ("q")) [toStr ("a"), toStr ("b")] 7 = some [] :=
  cache_hit_independent_of_id_order {} (toStr ("q"))
    [toStr ("b"), toStr ("a")] [toStr ("a"), toStr ("b")] [] 7 (by decide)

/-! ## C5 — union merge -/

/-- The AI pass of `mergeResults`: with pairwise-distinct, unseen ids it
appends all AI results and records their ids. -/
theorem mergeResults_ai_fold (ai : List Result) (seen : List Str)
    (merged : List Result)
    (hdisj : ∀ r ∈ ai, r.id ∉ seen)
    (hnd : (ai.map fun (r : Result) => r.id).Nodup) :
    ai.foldl
      (fun (acc : List Str × List Result) result =>
        if decide (result.id ∈ acc.1) then acc
        else (result.id :: acc.1, acc.2 ++ [result]))
      (seen, merged) =
      ((ai.map fun (r : Result) => r.id).reverse ++ seen, merged ++ ai) := by
  induction ai generalizing seen merged with
  | nil => simp
  | cons r rest ih =>
    simp only [List.map_cons, List.nodup_cons, List.mem_map] at hnd
    simp only [List.foldl_cons]
    rw [if_neg (by simp [hdisj r (List.mem_cons_self r rest)])]
    rw [ih (r.id :: seen) (merged ++ [r])
      (fun x hx => by
        simp only [List.mem_cons]
        push_neg
        exact ⟨fun hcontra => hnd.1 ⟨x, hx, hcontra⟩,
          hdisj x (List.mem_cons_of_mem r hx)⟩)
      hnd.2]
    simp [List.append_assoc]

/-- The local pass of `mergeResults`: appends the unseen local results,
tagged `"local"`, up to the limit. -/
theorem mergeResults_local_fold (loc : List Result) (seen : List Str)
    (merged : List Result) (limit : Nat)
    (hnd : (loc.map fun (r : Result) => r.id).Nodup) :
    (loc.foldl
      (fun (acc : List Str × List Result) result =>
        if !decide (result.id ∈ acc.1) && decide (acc.2.length < limit) then
          (result.id :: acc.1,
            acc.2 ++ [{ result with searchType := some .loc }])
        else acc)
      (seen, merged)).2 =
      merged ++
        (((loc.filter fun (r : Result) => !decide (r.id ∈ seen)).map
          fun (r : Result) => { r with searchType := some .loc }).take
          (limit - merged.length)) := by
  induction loc generalizing seen merged with
  | nil => simp
  | cons r rest ih =>
    simp only [List.map_cons, List.nodup_cons, List.mem_map] at hnd
    simp only [List.foldl_cons]
    cases hseen : decide (r.id ∈ seen) with
    | true =>
      simp only [Bool.not_true, Bool.false_and]
      rw [if_neg Bool.false_ne_true, ih seen merged hnd.2,
        List.filter_cons_of_neg (by simpa using hseen)]
    | false =>
      simp only [Bool.not_false, Bool.true_and]
      cases hlen : decide (merged.length < limit) with
      | false =>
        rw [if_neg Bool.false_ne_true, ih seen merged hnd.2]
        have h0 : limit - merged.length = 0 :=
          Nat.sub_eq_zero_of_le (Nat.le_of_not_lt (by simpa using hlen))
        rw [h0]
        simp
      | true =>
        rw [if_pos rfl]
        rw [ih (r.id :: seen)
          (merged ++ [({ r with searchType := some SearchType.loc } : Result)])
          hnd.2]
        have hfc :
            List.filter (fun (x : Result) => !decide (x.id ∈ r.id :: seen))
              rest =
            List.filter (fun (x : Result) => !decide (x.id ∈ seen)) rest :=
          List.filter_congr (fun x hx => by
            have hne : x.id ≠ r.id := fun hcontra => hnd.1 ⟨x, hx, hcontra⟩
            congr 1
            rw [decide_eq_decide]
            simp [List.mem_cons, hne])
        rw [hfc]
        rw [List.filter_cons_of_pos (by simp [hseen])]
        rw [List.map_cons,
          show limit - merged.length = (limit - merged.length - 1) + 1 by
            have := Nat.sub_pos_of_lt (of_decide_eq_true hlen)
            omega,
          List.take_succ_cons]
        have hlen1 : (merged ++ [{ r with searchType := some .loc }]).length =
            merged.length + 1 := by simp
        rw [hlen1, show limit - (merged.length + 1) =
          limit - merged.length - 1 by omega]
        simp [List.append_assoc]

/-- C5: for every AI and local result list with (per the data model)
pairwise-distinct ids, union merge returns the AI results in AI order
followed by the local-only results tagged `"local"`, truncated to the
limit, with no duplicate id and at most `limit` entries; and concretely,
AI `[id1, id2]` merged with local `[id2, id3]` under the default limit
yields `[id1, id2, id3]`. -/
theorem mergeResults_union_characterization :
    (∀ (aiResults localResults : List Result) (limit : Nat),
      (aiResults.map fun (r : Result) => r.id).Nodup →
      (localResults.map fun (r : Result) => r.id).Nodup →
      mergeResults localResults aiResults limit =
          unionMergeClaim aiResults localResults limit ∧
        ((mergeResults localResults aiResults limit).map
          fun (r : Result) => r.id).Nodup ∧
        (mergeResults localResults aiResults limit).length ≤ limit) ∧
    mergeResults [exL2, exL3] [exA1, exA2] 20 =
      [exA1, exA2, { exL3 with searchType := some .loc }] := by
  constructor
  · intro ai loc limit hai hloc
    have hchar : mergeResults loc ai limit = unionMergeClaim ai loc limit := by
      simp only [mergeResults, unionMergeClaim]
      rw [mergeResults_ai_fold ai [] [] (by simp) hai]
      rw [List.append_nil, List.nil_append]
      rw [mergeResults_local_fold loc ((ai.map fun (r : Result) => r.id).reverse)
        ai limit hloc]
      have hfc :
          List.filter
            (fun (r : Result) =>
              !decide (r.id ∈ (ai.map fun (a : Result) => a.id).reverse)) loc =
          List.filter
            (fun (r : Result) =>
              !decide (r.id ∈ ai.map fun (a : Result) => a.id)) loc :=
        List.filter_congr (fun x _ => by simp)
      rw [hfc]
      rw [List.take_append_eq_append_take, List.take_append_eq_append_take,
        List.take_take]
      simp
    refine ⟨hchar, ?_, ?_⟩
    · rw [hchar]
      unfold unionMergeClaim
      refine List.Sublist.nodup (List.Sublist.map _ (List.take_sublist _ _)) ?_
      rw [List.map_append, List.map_map]
      have hcomp :
          ((fun (r : Result) => r.id) ∘
            fun (r : Result) => { r with searchType := some .loc }) =
            fun (r : Result) => r.id := rfl
      rw [hcomp]
      rw [List.nodup_append]
      refine ⟨hai, ?_, ?_⟩
      · exact List.Sublist.nodup
          (List.Sublist.map _ (List.filter_sublist _)) hloc
      · intro a ha hb
        obtain ⟨y, hy, hyid⟩ := List.mem_map.mp hb
        have := List.of_mem_filter hy
        simp only [Bool.not_eq_true', decide_eq_false_iff_not] at this
        exact this (hyid ▸ ha)
    · rw [hchar]
      unfold unionMergeClaim
      exact List.length_take_le _ _
  · decide

/-- C5 witness: the general characterization applied to the claim's
concrete example lists. -/
theorem mergeResults_union_characterization_witness :
    mergeResults [exL2, exL3] [exA1, exA2] 20 =
        unionMergeClaim [exA1, exA2] [exL2, exL3] 20 ∧
      ((mergeResults [exL2, exL3] [exA1, exA2] 20).map
        fun (r : Result) => r.id).Nodup ∧
      (mergeResults [exL2, exL3] [exA1, exA2] 20).length ≤ 20 :=
  mergeResults_union_characterization.1 [exA1, exA2] [exL2, exL3] 20
    (by decide) (by decide)

/-! ## C6 — additive scoring -/

/-- A fold adding a fixed weight per element satisfying a predicate counts
the matching elements. -/
theorem foldl_if_add {α : Type} (p : α → Bool) (w : Nat) (l : List α) :
    ∀ a : Nat,
      l.foldl (fun acc x => if p x then acc + w else acc) a =
        a + w * (l.filter p).length := by
  induction l with
  | nil => intro a; simp
  | cons x t ih =>
    intro a
    simp only [List.foldl_cons]
    cases hx : p x with
    | true =>
      rw [if_pos rfl, List.filter_cons_of_pos hx, ih]
      simp only [List.length_cons]
      ring
    | false =>
      rw [if_neg Bool.false_ne_true, List.filter_cons_of_neg (by simp [hx]),
        ih]

/-- The title fold of `getScore`: +10 per keyword occurring in the title,
+20 more per keyword equal to the whole title. -/
theorem foldl_title_score (T : Str) (l : List Str) :
    ∀ a : Nat,
      l.foldl (fun score keyword =>
        if strIncludes T keyword then
          let score := score + 10
          if T = keyword then score + 20 else score
        else score) a =
        a + 10 * (l.filter fun kw => strIncludes T kw).length +
          20 * (l.filter fun kw => decide (T = kw)).length := by
  induction l with
  | nil => intro a; simp
  | cons x t ih =>
    intro a
    simp only [List.foldl_cons]
    cases hx : strIncludes T x with
    | true =>
      rw [if_pos rfl, List.filter_cons_of_pos hx]
      by_cases he : T = x
      · rw [if_pos he, List.filter_cons_of_pos (by simp [he]), ih]
        simp only [List.length_cons]
        ring
      · rw [if_neg he, List.filter_cons_of_neg (by simp [he]), ih]
        simp only [List.length_cons]
        ring
    | false =>
      have hne : ¬ T = x := by
        intro hcontra
        subst hcontra
        rw [show strIncludes T T = true from decide_eq_true List.infix_rfl]
          at hx
        exact absurd hx (by simp)
      rw [if_neg Bool.false_ne_true, List.filter_cons_of_neg (by simp [hx]),
        List.filter_cons_of_neg (by simp [hne]), ih]

/-- The nested tag-filter fold of `getScore`: +8 per (filter token,
matching record tag) pair. -/
theorem foldl_tag_pairs (tagsLower : List Str) (l : List Str) :
    ∀ a : Nat,
      l.foldl (fun score tag =>
        tagsLower.foldl (fun score bookmarkTag =>
          if strIncludes bookmarkTag tag then score + 8 else score) score) a =
        a + 8 * (l.map fun tag =>
          (tagsLower.filter fun bt => strIncludes bt tag).length).sum := by
  induction l with
  | nil => intro a; simp
  | cons x t ih =>
    intro a
    simp only [List.foldl_cons]
    rw [foldl_if_add (fun bt => strIncludes bt x) 8 tagsLower a, ih]
    simp only [List.map_cons, List.sum_cons]
    ring

/-- C6: for every record matching a parsed query, `getScore` equals the
claim's additive formula: +10 per include keyword found in the title (+20
more on an exact case-insensitive whole-title match), +5 per keyword in
the url, +3 per keyword in the description, +7 per keyword hitting at
least one tag (once per keyword), +5 per sites token in the url, and +8
per (tag-filter token, matching record tag) pair. -/
theorem getScore_additive (f : Filters) (bm : Bookmark)
    (hmatch : f.«matches» bm = true) :
    f.getScore bm = claimScore f bm := by
  simp only [Filters.getScore, claimScore]
  rw [foldl_title_score, foldl_if_add, foldl_if_add, foldl_if_add,
    foldl_if_add, foldl_tag_pairs]
  ring

/-- C6 witness: the formula evaluated on a concrete matching record. -/
theorem getScore_additive_witness :
    (parseQuery (toStr ("t"))).getScore scBm =
      claimScore (parseQuery (toStr ("t"))) scBm :=
  getScore_additive (parseQuery (toStr ("t"))) scBm (by decide)

/-! ## C8 — history invariants -/

/-- The operation `add` preserves the history invariants. -/
theorem historyAdd_inv (s : HistoryState) (q : Str) (h : HistoryInv s) :
    HistoryInv (historyAdd s q) := by
  obtain ⟨hnd, hlen, hne, hmax⟩ := h
  unfold historyAdd historySave
  cases hq : (trim q).isEmpty with
  | true => exact ⟨hnd, hlen, hne, hmax⟩
  | false =>
    rw [if_neg Bool.false_ne_true]
    dsimp only
    have hqne : trim q ≠ [] := by
      intro hc
      rw [hc] at hq
      exact absurd hq (by simp)
    have hnd1 : (s.history.filter fun h => h != trim q).Nodup :=
      hnd.filter _
    have hnotin : trim q ∉ s.history.filter fun h => h != trim q := by
      intro hmem
      have := List.of_mem_filter hmem
      simp at this
    have hnd2 : (trim q :: s.history.filter fun h => h != trim q).Nodup :=
      List.nodup_cons.mpr ⟨hnotin, hnd1⟩
    have hmem2 : ∀ e ∈ trim q :: s.history.filter fun h => h != trim q,
        e ≠ [] := by
      intro e hmem
      rcases List.mem_cons.mp hmem with hc | hc
      · exact hc ▸ hqne
      · exact hne e (List.mem_of_mem_filter hc)
    refine ⟨?_, ?_, ?_, hmax⟩
    · split
      · exact List.Sublist.nodup (List.take_sublist _ _) hnd2
      · exact hnd2
    · split
      · calc (List.take s.maxSize _).length ≤ s.maxSize :=
            List.length_take_le _ _
          _ ≤ 50 := by rw [hmax]
      · rename_i hnlt
        rw [hmax] at hnlt
        have : (trim q :: s.history.filter fun h => h != trim q).length ≤ 50 :=
          Nat.le_of_not_lt hnlt
        simpa using this
    · intro e hmem
      split at hmem
      · exact hmem2 e (List.take_subset _ _ hmem)
      · exact hmem2 e hmem

/-- The operation `remove` preserves the history invariants. -/
theorem historyRemove_inv (s : HistoryState) (q : Str) (h : HistoryInv s) :
    HistoryInv (historyRemove s q) := by
  obtain ⟨hnd, hlen, hne, hmax⟩ := h
  refine ⟨hnd.filter _, ?_, ?_, hmax⟩
  · calc (s.history.filter fun h => h != q).length ≤ s.history.length :=
        List.length_filter_le _ _
      _ ≤ 50 := hlen
  · intro e hmem
    exact hne e (List.mem_of_mem_filter hmem)

/-- The operation `clear` preserves the history invariants. -/
theorem historyClear_inv (s : HistoryState) (h : HistoryInv s) :
    HistoryInv (historyClear s) := by
  obtain ⟨_, _, _, hmax⟩ := h
  exact ⟨List.nodup_nil, by simp [historyClear, historySave],
    by simp [historyClear, historySave], hmax⟩

/-- Every run of history operations preserves the invariants. -/
theorem historyRun_inv (ops : List HistoryOp) (s : HistoryState)
    (h : HistoryInv s) : HistoryInv (historyRun ops s) := by
  induction ops generalizing s with
  | nil => exact h
  | cons op rest ih =>
    cases op with
    | add q => exact ih _ (historyAdd_inv s q h)
    | remove q => exact ih _ (historyRemove_inv s q h)
    | clear => exact ih _ (historyClear_inv s h)

/-- Adding a non-blank query always puts it at the front. -/
theorem historyAdd_head (s : HistoryState) (q : Str)
    (hmax : s.maxSize = 50) (hq : (trim q).isEmpty = false) :
    (historyAdd s q).history.head? = some (trim q) := by
  unfold historyAdd historySave
  rw [hq, if_neg Bool.false_ne_true]
  dsimp only
  split
  · rw [hmax, show (50 : Nat) = 49 + 1 from rfl, List.take_succ_cons]
    rfl
  · rfl

/-- Adding an already-present query moves its single occurrence to the
front, leaving the length unchanged. -/
theorem historyAdd_move_front (s : HistoryState) (q : Str)
    (hinv : HistoryInv s) (hmem : trim q ∈ s.history) :
    (historyAdd s q).history =
        trim q :: s.history.filter (fun h => h != trim q) ∧
      (historyAdd s q).history.count (trim q) = 1 ∧
      (historyAdd s q).history.length = s.history.length := by
  obtain ⟨hnd, hlen, hne, hmax⟩ := hinv
  have hqne : trim q ≠ [] := hne _ hmem
  have hq : (trim q).isEmpty = false := by
    cases hc : (trim q).isEmpty with
    | false => rfl
    | true => exact absurd (List.isEmpty_iff.mp hc) hqne
  have hlen1 : (s.history.filter fun h => h != trim q).length =
      s.history.length - 1 := by
    rw [← List.Nodup.erase_eq_filter hnd, List.length_erase_of_mem hmem]
  have hlen2 : (trim q :: s.history.filter fun h => h != trim q).length =
      s.history.length := by
    have hpos : 1 ≤ s.history.length := List.length_pos.mpr
      (List.ne_nil_of_mem hmem)
    simp only [List.length_cons, hlen1]
    omega
  have hnotin : trim q ∉ s.history.filter fun h => h != trim q := by
    intro hcontra
    have := List.of_mem_filter hcontra
    simp at this
  have heq : (historyAdd s q).history =
      trim q :: s.history.filter (fun h => h != trim q) := by
    unfold historyAdd historySave
    rw [hq, if_neg Bool.false_ne_true]
    dsimp only
    have hnlt : ¬ s.maxSize <
        (trim q :: s.history.filter fun h => h != trim q).length := by
      rw [hlen2, hmax]
      omega
    rw [if_neg hnlt]
  refine ⟨heq, ?_, ?_⟩
  · rw [heq, List.count_cons_self, List.count_eq_zero.mpr hnotin]
  · rw [heq, hlen2]

/-- Adding a fresh query to a full history evicts the oldest entry. -/
theorem historyAdd_evict (s : HistoryState) (q : Str)
    (hinv : HistoryInv s) (hq : (trim q).isEmpty = false)
    (hnot : trim q ∉ s.history) (hfull : s.history.length = 50) :
    (historyAdd s q).history = trim q :: s.history.dropLast ∧
      (historyAdd s q).history.length = 50 := by
  obtain ⟨hnd, hlen, hne, hmax⟩ := hinv
  have hfilter : s.history.filter (fun h => h != trim q) = s.history :=
    List.filter_eq_self.mpr fun x hx => by
      simp only [bne_iff_ne, ne_eq]
      exact fun hc => hnot (hc ▸ hx)
  have heq : (historyAdd s q).history = trim q :: s.history.take 49 := by
    unfold historyAdd historySave
    rw [hq, if_neg Bool.false_ne_true]
    dsimp only
    rw [hfilter]
    have hlt : s.maxSize < (trim q :: s.history).length := by
      simp only [List.length_cons, hfull, hmax]
      omega
    rw [if_pos hlt, hmax, show (50 : Nat) = 49 + 1 from rfl,
      List.take_succ_cons]
  constructor
  · rw [heq, List.dropLast_eq_take, hfull]
  · rw [heq]
    simp only [List.length_cons, List.length_take]
    omega

/-- C8: after every sequence of add/remove/clear operations starting from
the fresh singleton, the history has no duplicates, holds at most 50
entries and is most-recent-first (a non-blank add lands at the front);
adding an already-present query moves its single occurrence to the front
without changing the length, and adding a fresh query to a full history
of 50 leaves 50 entries with the oldest evicted. -/
theorem searchHistory_invariants (ops : List HistoryOp) :
    (historyRun ops {}).history.Nodup ∧
      (historyRun ops {}).history.length ≤ 50 ∧
      (∀ q, (trim q).isEmpty = false →
        (historyAdd (historyRun ops {}) q).history.head? = some (trim q)) ∧
      (∀ q, trim q ∈ (historyRun ops {}).history →
        (historyAdd (historyRun ops {}) q).history =
            trim q ::
              (historyRun ops {}).history.filter (fun h => h != trim q) ∧
          (historyAdd (historyRun ops {}) q).history.count (trim q) = 1 ∧
          (historyAdd (historyRun ops {}) q).history.length =
            (historyRun ops {}).history.length) ∧
      (∀ q, (trim q).isEmpty = false →
        trim q ∉ (historyRun ops {}).history →
        (historyRun ops {}).history.length = 50 →
        (historyAdd (historyRun ops {}) q).history =
            trim q :: (historyRun ops {}).history.dropLast ∧
          (historyAdd (historyRun ops {}) q).history.length = 50) := by
  have hinv : HistoryInv (historyRun ops {}) :=
    historyRun_inv ops {} ⟨List.nodup_nil, by simp, by simp, rfl⟩
  refine ⟨hinv.1, hinv.2.1, ?_, ?_, ?_⟩
  · intro q hq
    exact historyAdd_head _ q hinv.2.2.2 hq
  · intro q hmem
    exact historyAdd_move_front _ q hinv hmem
  · intro q hq hnot hfull
    exact historyAdd_evict _ q hinv hq hnot hfull

/-- C8 witness: a concrete run (add `b`, add `a`, re-add `b`) keeping the
invariants, with the re-add moving `b` to the front. -/
theorem searchHistory_invariants_witness :
    (historyRun [.add (toStr ("b")), .add (toStr ("a")),
        .add (toStr ("b"))] {}).history.Nodup ∧
      (historyAdd (historyRun [.add (toStr ("b")), .add (toStr ("a")),
          .add (toStr ("b"))] {}) (toStr ("a"))).history =
        trim (toStr ("a")) ::
          (historyRun [.add (toStr ("b")), .add (toStr ("a")),
            .add (toStr ("b"))] {}).history.filter
            (fun h => h != trim (toStr ("a"))) :=
  ⟨(searchHistory_invariants [.add (toStr ("b")), .add (toStr ("a")),
      .add (toStr ("b"))]).1,
    ((searchHistory_invariants [.add (toStr ("b")), .add (toStr ("a")),
      .add (toStr ("b"))]).2.2.2.1 (toStr ("a")) (by decide)).1⟩

/-! ## C2 — highlight extraction records every occurrence -/

/-- For a strictly increasing list, the head of a lower-bounded filter
splits that filter at the head. -/
theorem filter_ge_head_step (l : List Nat) (hl : l.Pairwise (· < ·))
    (q : Nat → Bool) (start i : Nat)
    (h : (l.filter fun j => decide (start ≤ j) && q j).head? = some i) :
    (l.filter fun j => decide (start ≤ j) && q j) =
        i :: l.filter (fun j => decide (i + 1 ≤ j) && q j) ∧
      start ≤ i := by
  induction l with
  | nil => simp at h
  | cons x xs ih =>
    have hx_lt : ∀ y ∈ xs, x < y := fun y hy =>
      List.rel_of_pairwise_cons hl hy
    rw [List.filter_cons] at h ⊢
    rw [List.filter_cons]
    cases hc : (decide (start ≤ x) && q x) with
    | true =>
      simp only [hc, reduceIte] at h ⊢
      have hsx : start ≤ x := by
        have hc' := hc
        simp only [Bool.and_eq_true, decide_eq_true_eq] at hc'
        exact hc'.1
      have hix : i = x := by
        rw [List.head?_cons] at h
        exact (Option.some_inj.mp h).symm
      have hnostep : (decide (i + 1 ≤ x) && q x) = false := by
        rw [decide_eq_false (show ¬ i + 1 ≤ x by omega)]
        rfl
      rw [hnostep, if_neg Bool.false_ne_true]
      refine ⟨?_, by omega⟩
      rw [hix]
      congr 1
      refine List.filter_congr fun y hy => ?_
      have hxy := hx_lt y hy
      rw [decide_eq_true (show start ≤ y by omega),
        decide_eq_true (show x + 1 ≤ y by omega)]
    | false =>
      simp only [hc, reduceIte] at h ⊢
      obtain ⟨heq, hsi⟩ := ih (List.Pairwise.of_cons hl) h
      have hpredx : (decide (i + 1 ≤ x) && q x) = false := by
        cases hqx : q x with
        | false => simp [hqx]
        | true =>
          have hsx : decide (start ≤ x) = false := by
            cases hsxc : decide (start ≤ x) with
            | false => rfl
            | true => rw [hsxc, hqx] at hc; exact absurd hc (by simp)
          have hxs : ¬ start ≤ x := of_decide_eq_false hsx
          rw [decide_eq_false (show ¬ i + 1 ≤ x by omega)]
          rfl
      rw [hpredx, if_neg Bool.false_ne_true]
      exact ⟨heq, hsi⟩

/-- The `indexOf` loop of `extractMatches` collects a span for *every*
occurrence position at or after `start`, given enough fuel. -/
theorem scanMatches_eq_filter (field keyword : Str) :
    ∀ (fuel start : Nat), field.length + 1 ≤ start + fuel →
      scanMatches field keyword start fuel =
        ((List.range (field.length + 1)).filter fun i =>
          decide (start ≤ i) &&
            keyword.isPrefixOf ((lower field).drop i)).map
          fun i =>
            ({ start := i, stop := i + keyword.length,
               text := (field.drop i).take keyword.length } : MatchSpan) := by
  have hlow : (lower field).length = field.length := by
    simp [lower]
  intro fuel
  induction fuel with
  | zero =>
    intro start hb
    have hnil : ((List.range (field.length + 1)).filter fun i =>
        decide (start ≤ i) &&
          keyword.isPrefixOf ((lower field).drop i)) = [] := by
      refine List.filter_eq_nil_iff.mpr fun a ha => ?_
      have hlt := List.mem_range.mp ha
      simp only [Bool.and_eq_true, decide_eq_true_eq, not_and]
      intro hsa
      omega
    rw [hnil]
    rfl
  | succ fuel ih =>
    intro start hb
    cases hidx : indexOfFrom (lower field) keyword start with
    | none =>
      simp only [scanMatches, hidx]
      unfold indexOfFrom at hidx
      rw [hlow] at hidx
      rw [List.head?_eq_none_iff.mp hidx]
      rfl
    | some idx =>
      simp only [scanMatches, hidx]
      unfold indexOfFrom at hidx
      rw [hlow] at hidx
      obtain ⟨heq, hsi⟩ := filter_ge_head_step (List.range (field.length + 1))
        (List.pairwise_lt_range _)
        (fun i => keyword.isPrefixOf ((lower field).drop i)) start idx hidx
      rw [heq, List.map_cons, ih (idx + 1) (by omega)]

/-- C2 amended: `extractMatches` records, independently per field and
keyword, one `{start, end, text}` span with the original-case substring
for *every* case-insensitive occurrence of the keyword — overlapping
occurrences included, since the scan resumes one character past each
match start. -/
theorem extractMatches_all_occurrences (bm : Bookmark)
    (keywords : List Str) :
    extractMatches bm keywords =
      { title := keywords.flatMap fun kw => allOccurrenceSpans bm.title kw,
        url := keywords.flatMap fun kw => allOccurrenceSpans bm.url kw,
        description := keywords.flatMap fun kw =>
          allOccurrenceSpans bm.description kw } := by
  have hfield : ∀ f kw : Str,
      scanMatches f kw 0 (f.length + 1) = allOccurrenceSpans f kw := by
    intro f kw
    rw [scanMatches_eq_filter f kw (f.length + 1) 0 (by omega)]
    unfold allOccurrenceSpans occurrencePositions
    congr 1
    refine List.filter_congr fun i _ => ?_
    rw [decide_eq_true (Nat.zero_le i), Bool.true_and]
  unfold extractMatches
  simp only [hfield]

/-- C2 counterexample: searching the title `aaa` for the keyword `aa`
records the two *overlapping* spans `[0,2)` and `[1,3)`, where the
claim's non-overlapping scan records only `[0,2)`. -/
theorem extractMatches_overlapping_cx :
    localSearch [ovBm] (toStr ("aa")) {} =
        [{ toBookmark := ovBm, score := 10,
           «matches» := some
             { title := [⟨0, 2, toStr ("aa")⟩, ⟨1, 3, toStr ("aa")⟩],
               url := [], description := [] } }] ∧
      nonOverlappingSpans (toStr ("aaa")) (toStr ("aa")) 0 4 =
        [⟨0, 2, toStr ("aa")⟩] ∧
      (extractMatches ovBm [toStr ("aa")]).title ≠
        nonOverlappingSpans (toStr ("aaa")) (toStr ("aa")) 0 4 := by
  refine ⟨by decide, by decide, by decide⟩

/-! ## C10 — history is mutated only for non-empty result lists -/

/-- With every record failing the parsed query and the default
`minScore = 0`, `localSearch` returns the empty list. -/
theorem localSearch_no_match_nil (bookmarks : List Bookmark) (query : Str)
    (options : SearchOptions) (hmin : options.minScore = 0)
    (hnomatch : ∀ b ∈ bookmarks, (parseQuery query).«matches» b = false) :
    localSearch bookmarks query options = [] := by
  unfold localSearch
  cases hq : (trim query).isEmpty with
  | true => rw [if_pos rfl]
  | false =>
    rw [if_neg Bool.false_ne_true]
    dsimp only
    have hkept : ((bookmarks.map fun bookmark =>
        (bookmark,
          if (parseQuery query).«matches» bookmark then
            ((parseQuery query).getScore bookmark : Int)
          else -1)).filter
        fun item => decide (options.minScore ≤ item.2)) = [] := by
      refine List.filter_eq_nil_iff.mpr fun item hitem => ?_
      obtain ⟨b, hb, rfl⟩ := List.mem_map.mp hitem
      simp only [hnomatch b hb, Bool.false_eq_true, if_false, hmin,
        decide_eq_true_eq]
      omega
    rw [hkept]
    simp

/-- C10: `search` leaves the history singleton — in memory and in its
persisted copy — unchanged whenever the result list it is about to return
is empty; in particular, with no AI configuration and the default
`minScore = 0`, a query matching zero records never touches the history,
even though recording was requested (`options.history = true`). -/
theorem search_history_frame (query : Str) (bookmarks : List Bookmark)
    (aiConfig : Option AIConfig) (options : SearchOptions)
    (hist : HistoryState) (cache : SearchCache) (now : Nat)
    (call : AICallOutcome) (sugg : AISuggestOutcome)
    (hh : options.history = true) :
    (∀ out hist' cache',
      search query bookmarks aiConfig options hist cache now call sugg =
          some (out, hist', cache') →
        out.results.lengthJS = some 0 → hist' = hist) ∧
    (aiConfig = none → options.minScore = 0 →
      (∀ b ∈ bookmarks, (parseQuery query).«matches» b = false) →
      (search query bookmarks aiConfig options hist cache now call
          sugg).map (fun t => t.2.1) = some hist) := by
  constructor
  · intro out hist' cache' hcall hlen0
    unfold search at hcall
    cases hq : (trim query).isEmpty with
    | true =>
      rw [hq, if_pos rfl] at hcall
      injection hcall with h1
      exact (congrArg (fun t => t.2.1) h1).symm
    | false =>
      rw [hq, if_neg Bool.false_ne_true] at hcall
      cases hp : (if options.useAI && aiConfig.isSome then
          smartSearch query bookmarks aiConfig options cache now call
        else (SearchReturn.list (localSearch bookmarks query options),
          cache)) with
      | mk results cache₂ =>
        rw [hp] at hcall
        dsimp only at hcall
        cases hl : results.lengthJS with
        | none =>
          rw [hl] at hcall
          exact absurd hcall (by simp)
        | some len =>
          rw [hl] at hcall
          injection hcall with h1
          have hout : out.results = results :=
            (congrArg (fun t => t.1.results) h1).symm
          have hlen : len = 0 := by
            rw [hout, hl] at hlen0
            exact Option.some_inj.mp hlen0
          subst hlen
          have hhist : hist' =
              (if options.history && decide (0 < 0) then
                historyAdd hist query else hist) :=
            (congrArg (fun t => t.2.1) h1).symm
          rw [hhist]
          simp
  · intro hcfg hmin hnomatch
    subst hcfg
    have hloc : localSearch bookmarks query options = [] :=
      localSearch_no_match_nil bookmarks query options hmin hnomatch
    unfold search
    cases hq : (trim query).isEmpty with
    | true =>
      rw [if_pos rfl]
      rfl
    | false =>
      rw [if_neg Bool.false_ne_true]
      simp only [Option.isSome_none, Bool.and_false, Bool.false_eq_true,
        if_false, hloc, hh]
      rfl

/-- C10 witness: a concrete zero-match search leaving a non-trivial
history state untouched. -/
theorem search_history_frame_witness :
    (search (toStr ("q")) [] none {} frameHist {} 0 .failure
        .failure).map (fun t => t.2.1) = some frameHist :=
  (search_history_frame (toStr ("q")) [] none {} frameHist {} 0 .failure
      .failure rfl).2 rfl rfl (fun b hb => absurd hb (List.not_mem_nil b))

end SmartBookmarks

